import Mathlib

/- Shallow embedding of src/topic_modeling/model_optimizer.py (class
ModelOptimizer and its module-level helpers) and proofs about it.

Conventions used throughout:
- Python dicts that are built in insertion order are modelled as association
  lists `List (key × value)` in the same insertion order.
- Python floats that only ever get compared or copied are modelled as `ℚ`.
- Python strings are modelled as `String`, except where character-level
  operations need to be reasoned about, in which case `List Char` is used.
- Python values that can be either `int` or `str` (the topic-name dictionary
  holds both) are modelled by the sum type `PyVal`. -/

namespace HADES

/-- One comparison step of Python's `max(iterable, key=f)`: the running best
is replaced only when the new candidate's key is strictly larger, so among
ties the earliest element is kept. -/
def maxStep (best kv : Nat × ℚ) : Nat × ℚ :=
  if best.2 < kv.2 then kv else best

/-- Python's `max(d, key=d.get)` over a nonempty dict in insertion order,
split as head and tail. -/
def maxByVal (hd : Nat × ℚ) (tl : List (Nat × ℚ)) : Nat × ℚ :=
  tl.foldl maxStep hd

/-- Lines 221-222, `get_best_topics_num(cvs)`: `max(cvs, key=cvs.get)`. The Coherence
Table is the association list of (topic count, coherence score) pairs in
insertion order; `none` models Python's `ValueError` on an empty dict. -/
def get_best_topics_num : List (Nat × ℚ) → Option Nat
  | [] => none
  | hd :: tl => some (maxByVal hd tl).1

/-- A Python value that is either an `int` or a `str`; the Topic Name Map
holds integers right after construction and strings once topics are named. -/
inductive PyVal where
  | int (n : Int) : PyVal
  | str (s : String) : PyVal
  deriving DecidableEq, Repr

/-- Python `d[k] = v` on an insertion-ordered dict: replaces the value in
place when the key is present, otherwise appends the pair at the end. -/
def dictSet (d : List (Nat × PyVal)) (k : Nat) (v : PyVal) : List (Nat × PyVal) :=
  if d.any (fun p => p.1 == k) then
    d.map (fun p => if p.1 == k then (k, v) else p)
  else d ++ [(k, v)]

/-- Python `d.update(u)`: sets each key of `u` into `d` in order. -/
def dictUpdate (d u : List (Nat × PyVal)) : List (Nat × PyVal) :=
  u.foldl (fun acc p => dictSet acc p.1 p.2) d

/-- Key set of a dict; Python `d.keys()` compares as a set. -/
def dictKeys (d : List (Nat × PyVal)) : Finset Nat :=
  (d.map Prod.fst).toFinset

/-- Boolean key-set comparison, Python `d1.keys() == d2.keys()`. -/
def keysEq (a b : List (Nat × PyVal)) : Bool :=
  (a.all (fun p => b.any (fun q => q.1 == p.1))) &&
    (b.all (fun p => a.any (fun q => q.1 == p.1)))

/-- Argument of `name_topics_manually`, Python `Union[List[str], Dict[int, str]]`. -/
inductive TopicNamesArg where
  | ofList (names : List PyVal) : TopicNamesArg
  | ofDict (m : List (Nat × PyVal)) : TopicNamesArg

/-- Lines 170-173: a list argument becomes `{i: topic_names[i] for i in
range(len(topic_names))}` (positional), a dict argument is used as is. -/
def normalizeArg : TopicNamesArg → List (Nat × PyVal)
  | .ofList names => names.enum
  | .ofDict m => m

/-- Lines 167-179, `name_topics_manually`: merge the update into a copy of the
current Topic Name Map and commit only when the merged key set equals the
current key set. The Bool records whether the "Topic names not updated"
warning was emitted. -/
def name_topics_manually (topic_names_dict : List (Nat × PyVal))
    (topic_names : TopicNamesArg) : List (Nat × PyVal) × Bool :=
  let updated_dict := dictUpdate topic_names_dict (normalizeArg topic_names)
  if keysEq updated_dict topic_names_dict then (updated_dict, false)
  else (topic_names_dict, true)

/-- Line 53: `self.topic_names_dict = {i: i for i in range(self.topics_num)}`.
The values are the integers `i` themselves, not strings. -/
def initTopicNames (topics_num : Nat) : List (Nat × PyVal) :=
  (List.range topics_num).map (fun i => (i, PyVal.int i))

/-- The newline character, written via its code point. -/
def nlChar : Char := Char.ofNat 10

/-- The double-quote character, written via its code point. -/
def quoteChar : Char := Char.ofNat 34

/-- Python `text.split("\n")` on a list of characters: splits at every
newline and keeps empty segments, so `"".split("\n") == [""]` and a trailing
newline produces a final empty segment. -/
def splitOnNl : List Char → List (List Char)
  | [] => [[]]
  | c :: cs =>
    match splitOnNl cs with
    | [] => [[]]
    | s :: ss => if c = nlChar then [] :: s :: ss else (c :: s) :: ss

/-- Lines 274-276, `_generate_title` applied to the response text:
`text.split("\n")[-1].replace('"', '')` — the last line (empty when the text
ends in a newline) with every double-quote character removed. -/
def _generate_title (text : List Char) : List Char :=
  ((splitOnNl text).getLastD []).filter (fun c => c != quoteChar)

/-- Modelled from the spec: "take the last non-empty line of the response
with surrounding quote characters stripped" — the comparison point for C6,
not part of the code. -/
def lastNonEmptyLineStripped (text : List Char) : List Char :=
  let lines := (splitOnNl text).filter (fun s => !s.isEmpty)
  ((((lines.getLastD []).dropWhile (fun c => c == quoteChar)).reverse).dropWhile
    (fun c => c == quoteChar)).reverse

/-- One row of the Document-Topic Table: the value of the grouping column
and the row's numeric columns, whose last `topics_num` entries are the topic
probabilities. -/
structure DocRow where
  group : String
  cols : List ℚ
  deriving DecidableEq, Repr

/-- Helper for `Series.unique()`: keeps the first occurrence of each value,
carrying the set of values already seen. -/
def uniqueValsAux (seen : List String) : List String → List String
  | [] => []
  | x :: xs =>
    if x ∈ seen then uniqueValsAux seen xs
    else x :: uniqueValsAux (seen ++ [x]) xs

/-- Pandas `Series.unique()`: the distinct values in first-appearance order. -/
def uniqueVals (l : List String) : List String :=
  uniqueValsAux [] l

/-- Line 96, `modeling_results.groupby(column).count()[0].max()`: the maximal
group row count. Column 0 (the first probability column) is never null, so
the count is the group's row count. -/
def maxGroupRows (rows : List DocRow) : Nat :=
  ((((uniqueVals (rows.map DocRow.group)).map
    (fun v => (rows.filter (fun r => r.group == v)).length)).max?).getD 0)

/-- Line 102, `df_tmp.iloc[:, -topics_num:]` for one row: its last
`topics_num` columns. -/
def lastCols (topics_num : Nat) (r : DocRow) : List ℚ :=
  r.cols.drop (r.cols.length - topics_num)

/-- The loop of lines 97-103 over the distinct grouping values: a group whose
row count differs from `maxRows` contributes a warning naming it, any other
group contributes one flattened output row (row-major member order). The
first component collects `result`/`column_vals_added`, the second the warned
values. -/
def aggregateGroups (topics_num maxRows : Nat) (rows : List DocRow) :
    List String → List (String × List ℚ) × List String
  | [] => ([], [])
  | v :: vs =>
    let df_tmp := rows.filter (fun r => r.group == v)
    let rest := aggregateGroups topics_num maxRows rows vs
    if df_tmp.length ≠ maxRows then (rest.1, v :: rest.2)
    else ((v, (df_tmp.map (lastCols topics_num)).flatten) :: rest.1, rest.2)

/-- Lines 86-108, `get_topic_probs_averaged_over_column`, acting on an
already computed Document-Topic Table: groups rows by the grouping column,
drops (with a warning) every group whose row count differs from the maximal
one, and flattens each surviving group's last `topics_num` columns into a
single output row keyed by the group value. -/
def get_topic_probs_averaged_over_column (topics_num : Nat) (rows : List DocRow) :
    List (String × List ℚ) × List String :=
  aggregateGroups topics_num (maxGroupRows rows) rows (uniqueVals (rows.map DocRow.group))

/-- Stacking the output rows, `np.vstack(result)`: defined only when the
result is nonempty and all its rows have the same width. -/
def vstackWidth (stacked : List (List ℚ)) : Option Nat :=
  match stacked with
  | [] => none
  | r :: rs => if rs.all (fun x => x.length == r.length) then some r.length else none

/-- Lines 104-108: build the result frame and then set its column labels.
Default labels are the integers 0..width-1; with `show_names = true` the
code assigns the `topics_num` values `topic_names_dict[0..topics_num-1]` as
labels, which pandas rejects with a length-mismatch `ValueError` (modelled
as `Except.error`) whenever `topics_num` differs from the frame's width. -/
def get_topic_probs_averaged_with_names (topics_num : Nat) (rows : List DocRow)
    (topic_names_dict : List (Nat × PyVal)) (show_names : Bool) :
    Except String (List PyVal × List (String × List ℚ)) :=
  let out := (get_topic_probs_averaged_over_column topics_num rows).1
  match vstackWidth (out.map Prod.snd) with
  | none => Except.error ("vstack: empty or ragged input")
  | some width =>
    if show_names then
      let names := (List.range topics_num).map
        (fun i => ((topic_names_dict.lookup i).getD (PyVal.int 0)))
      if names.length = width then Except.ok (names, out)
      else Except.error ("Length mismatch")
    else Except.ok ((List.range width).map (fun i => PyVal.int i), out)

/-- NumPy `np.round(x, 4)`: scale by 10^4, round half to even, scale back. -/
def npRound4 (q : ℚ) : ℚ :=
  (if q * 10000 - (q * 10000).floor < 1/2 then ((q * 10000).floor : ℚ)
   else if 1/2 < q * 10000 - (q * 10000).floor then ((q * 10000).floor : ℚ) + 1
   else if (q * 10000).floor % 2 = 0 then ((q * 10000).floor : ℚ)
   else ((q * 10000).floor : ℚ) + 1) / 10000

/-- The inner loop of lines 79-81 for one document: starting from a zero row
of width `topics_num`, write `np.round(p, 4)` at index t for every reported
(t, p) pair. -/
def writeTopicProbs (topics_num : Nat) (doc : List (Nat × ℚ)) : List ℚ :=
  doc.foldl (fun row tp => row.set tp.1 (npRound4 tp.2)) (List.replicate topics_num 0)

/-- Lines 74-84, `get_topic_probs_df`, restricted to the probability matrix
`res`: `np.zeros((res_len, topics_num))` overwritten row by row from the
model's sparse per-document topic lists. The original data columns are
reattached unchanged by the code and are not modelled; the code requires
`corpus_model` to have at most `res_len` documents (NumPy raises otherwise). -/
def get_topic_probs_res (res_len topics_num : Nat)
    (corpus_model : List (List (Nat × ℚ))) : List (List ℚ) :=
  (List.range res_len).map (fun i => writeTopicProbs topics_num (corpus_model.getD i []))

/-- One row of the Topic Word Table, columns
["word", "topic_id", "importance", "word_count"]. -/
structure TopicWordRow where
  word : String
  topic_id : Nat
  importance : ℚ
  word_count : Nat
  deriving DecidableEq, Repr

instance topicWordDescTotal :
    IsTotal TopicWordRow (fun a b => b.importance ≤ a.importance) :=
  ⟨fun a b => le_total b.importance a.importance⟩

instance topicWordDescTrans :
    IsTrans TopicWordRow (fun a b => b.importance ≤ a.importance) :=
  ⟨fun _ _ _ h1 h2 => le_trans h2 h1⟩

/-- Lines 59-72, `get_topics_df`: one output row per (topic, top word) pair
returned by the model — word string through the dictionary, topic id, the
model's native importance weight, and the word's occurrence count over the
whole Filtered Corpus (`Counter(self.filtered_lemmas.sum())`) — finally
sorted by importance descending (`sort_values(by=["importance"],
ascending=False)`; pandas' quicksort is an unspecified permutation among
ties, modelled by insertion sort). -/
def get_topics_df (topics : List (Nat × List (Nat × ℚ)))
    (lemmas : List (List String)) (id2word : Nat → String) : List TopicWordRow :=
  List.insertionSort (fun a b => b.importance ≤ a.importance)
    (topics.flatMap (fun t => t.2.map (fun w =>
      ⟨id2word w.1, t.1, w.2, (lemmas.flatten).count (id2word w.1)⟩)))

/-- Lines 262-271, `_generate_prompt`: ranked keyword/weight pairs plus the
exclusion phrase built from previously used titles. -/
def _generate_prompt (keywords : List String) (weights : List ℚ)
    (excluded : List String) : String :=
  let keywords_weights := (keywords.zip weights).map
    (fun p => p.1 ++ (": ") ++ toString p.2)
  let excluded_str :=
    if excluded.length > 0 then
      ("different than: ") ++ String.intercalate (", ") excluded ++ (" ")
    else ("")
  ("Generate short (maximum three words) title ") ++ excluded_str ++
    ("based on given keywords and their importance: ") ++
    String.intercalate (", ") keywords_weights

/-- One remote call of the automatic-naming loop: the topic index, the
exclusion list at call time, the prompt sent, and the title produced. -/
structure TitleCall where
  topic_id : Nat
  excluded : List String
  prompt : String
  title : String
  deriving DecidableEq, Repr, Inhabited

/-- The loop of lines 158-164: for each remaining topic (first argument),
with `i` the next topic index and `excluded` the titles assigned so far,
build the prompt, call the completion collaborator `gen`, record the call,
and append the title to the exclusion list. `keywords`/`weights` give each
topic's ranked keyword list (the `topic_id == i` filter of the keyword
table). -/
def nameTopicsLoop (gen : String → String) (keywords : Nat → List String)
    (weights : Nat → List ℚ) : Nat → Nat → List String → List TitleCall
  | 0, _, _ => []
  | n + 1, i, excluded =>
    let prompt := _generate_prompt (keywords i) (weights i) excluded
    let title := gen prompt
    ⟨i, excluded, prompt, title⟩ ::
      nameTopicsLoop gen keywords weights n (i + 1) (excluded ++ [title])

/-- Lines 149-164, `name_topics_automatically_gpt3`, with the remote
completion collaborator abstracted as `gen : prompt → title` (the composite
of the API call and `_generate_title`): iterate over topics 0..topics_num-1
starting from an empty exclusion list. Returns the sequence of calls made. -/
def name_topics_automatically_gpt3 (gen : String → String)
    (keywords : Nat → List String) (weights : Nat → List ℚ)
    (topics_num : Nat) : List TitleCall :=
  nameTopicsLoop gen keywords weights topics_num 0 []

theorem maxStep_mem (hd x : Nat × ℚ) : maxStep hd x = hd ∨ maxStep hd x = x := by
  unfold maxStep
  split
  · exact Or.inr rfl
  · exact Or.inl rfl

theorem le_maxStep_left (hd x : Nat × ℚ) : hd.2 ≤ (maxStep hd x).2 := by
  unfold maxStep
  split
  · exact le_of_lt (by assumption)
  · exact le_refl _

theorem le_maxStep_right (hd x : Nat × ℚ) : x.2 ≤ (maxStep hd x).2 := by
  unfold maxStep
  split
  · exact le_refl _
  · exact le_of_not_lt (by assumption)

theorem maxByVal_mem (hd : Nat × ℚ) (tl : List (Nat × ℚ)) :
    maxByVal hd tl ∈ hd :: tl := by
  induction tl generalizing hd with
  | nil => simp [maxByVal]
  | cons x tl ih =>
    have hres : maxByVal hd (x :: tl) = maxByVal (maxStep hd x) tl := rfl
    have h := ih (maxStep hd x)
    rw [hres]
    rcases List.mem_cons.mp h with h | h
    · rcases maxStep_mem hd x with hs | hs
      · rw [h, hs]
        exact List.mem_cons_self _ _
      · rw [h, hs]
        exact List.mem_cons_of_mem _ (List.mem_cons_self _ _)
    · exact List.mem_cons_of_mem _ (List.mem_cons_of_mem _ h)

theorem maxByVal_ge (hd : Nat × ℚ) (tl : List (Nat × ℚ)) :
    ∀ p ∈ hd :: tl, p.2 ≤ (maxByVal hd tl).2 := by
  induction tl generalizing hd with
  | nil =>
    intro p hp
    simp only [List.mem_singleton] at hp
    simp [maxByVal, hp]
  | cons x tl ih =>
    intro p hp
    have hstep : (maxStep hd x).2 ≤ (maxByVal (maxStep hd x) tl).2 :=
      ih (maxStep hd x) (maxStep hd x) (List.mem_cons_self _ _)
    have hres : maxByVal hd (x :: tl) = maxByVal (maxStep hd x) tl := by
      simp [maxByVal]
    rcases List.mem_cons.mp hp with h | h
    · rw [h, hres]
      exact le_trans (le_maxStep_left hd x) hstep
    · rcases List.mem_cons.mp h with h | h
      · rw [h, hres]
        exact le_trans (le_maxStep_right hd x) hstep
      · rw [hres]
        exact ih (maxStep hd x) p (List.mem_cons_of_mem _ h)

theorem maxByVal_first_tie (hd : Nat × ℚ) (tl : List (Nat × ℚ))
    (hasc : (hd :: tl).Pairwise (fun a b => a.1 < b.1)) :
    ∀ p ∈ hd :: tl, p.2 = (maxByVal hd tl).2 → (maxByVal hd tl).1 ≤ p.1 := by
  induction tl generalizing hd with
  | nil =>
    intro p hp _
    simp only [List.mem_singleton] at hp
    simp [maxByVal, hp]
  | cons x tl ih =>
    intro p hp htie
    have hres : maxByVal hd (x :: tl) = maxByVal (maxStep hd x) tl := by
      simp [maxByVal]
    rw [hres] at htie ⊢
    by_cases hc : hd.2 < x.2
    · have hsx : maxStep hd x = x := by simp [maxStep, hc]
      rw [hsx] at htie ⊢
      have hpx : (x :: tl).Pairwise (fun a b => a.1 < b.1) :=
        hasc.sublist (List.sublist_cons_self _ _)
      have hxle : x.2 ≤ (maxByVal x tl).2 :=
        maxByVal_ge x tl x (List.mem_cons_self _ _)
      rcases List.mem_cons.mp hp with h | h
      · exfalso
        rw [h] at htie
        exact absurd htie (ne_of_lt (lt_of_lt_of_le hc hxle))
      · exact ih x hpx p h htie
    · have hsx : maxStep hd x = hd := by simp [maxStep, hc]
      rw [hsx] at htie ⊢
      have hsub : (hd :: tl).Sublist (hd :: x :: tl) :=
        List.Sublist.cons₂ hd (List.sublist_cons_self _ _)
      have hph : (hd :: tl).Pairwise (fun a b => a.1 < b.1) := hasc.sublist hsub
      rcases List.mem_cons.mp hp with h | h
      · exact ih hd hph p (h ▸ List.mem_cons_self _ _) (h ▸ htie)
      · rcases List.mem_cons.mp h with h | h
        · have hhdle : hd.2 ≤ (maxByVal hd tl).2 :=
            maxByVal_ge hd tl hd (List.mem_cons_self _ _)
          have hxhd : x.2 ≤ hd.2 := le_of_not_lt hc
          have hhdtie : hd.2 = (maxByVal hd tl).2 := by
            apply le_antisymm hhdle
            rw [← htie, h]
            exact hxhd
          have hk : (maxByVal hd tl).1 ≤ hd.1 :=
            ih hd hph hd (List.mem_cons_self _ _) hhdtie
          have hlt : hd.1 < x.1 := by
            have := List.pairwise_cons.mp hasc
            exact this.1 x (List.mem_cons_self _ _)
          rw [h]
          exact le_of_lt (lt_of_le_of_lt hk hlt)
        · exact ih hd hph p (List.mem_cons_of_mem _ h) htie

/-- C1: for every non-empty Coherence Table (association list from topic
count K to coherence score, built in ascending-K order), the K selected by
`get_best_topics_num` is a key of the table, its score is greater than or
equal to every other entry's score, and among keys tied for the maximum the
smallest K is returned. -/
theorem C1_best_count_selector (cvs : List (Nat × ℚ)) (hne : cvs ≠ [])
    (hasc : cvs.Pairwise (fun a b => a.1 < b.1)) :
    ∃ k s, get_best_topics_num cvs = some k ∧ (k, s) ∈ cvs ∧
      (∀ p ∈ cvs, p.2 ≤ s) ∧ (∀ p ∈ cvs, p.2 = s → k ≤ p.1) := by
  match cvs, hne with
  | hd :: tl, _ =>
    refine ⟨(maxByVal hd tl).1, (maxByVal hd tl).2, rfl, ?_, ?_, ?_⟩
    · exact maxByVal_mem hd tl
    · exact maxByVal_ge hd tl
    · exact maxByVal_first_tie hd tl hasc

/-- Concrete instance of C1: on the table {2 ↦ 1, 3 ↦ 2, 4 ↦ 2} the
scores of 3 and 4 tie for the maximum and 3 (inserted first) is selected. -/
theorem C1_best_count_selector_witness :
    get_best_topics_num [(2, (1 : ℚ)), (3, (2 : ℚ)), (4, (2 : ℚ))] = some 3 ∧
      ∃ k s, get_best_topics_num [(2, (1 : ℚ)), (3, (2 : ℚ)), (4, (2 : ℚ))] = some k ∧
        (k, s) ∈ [(2, (1 : ℚ)), (3, (2 : ℚ)), (4, (2 : ℚ))] ∧
        (∀ p ∈ [(2, (1 : ℚ)), (3, (2 : ℚ)), (4, (2 : ℚ))], p.2 ≤ s) ∧
        (∀ p ∈ [(2, (1 : ℚ)), (3, (2 : ℚ)), (4, (2 : ℚ))], p.2 = s → k ≤ p.1) :=
  ⟨by decide, C1_best_count_selector _ (by decide) (by decide)⟩

theorem keysEq_iff (a b : List (Nat × PyVal)) :
    keysEq a b = true ↔ dictKeys a = dictKeys b := by
  simp only [keysEq, dictKeys, Bool.and_eq_true, List.all_eq_true, List.any_eq_true,
    beq_iff_eq, Finset.ext_iff, List.mem_toFinset, List.mem_map]
  constructor
  · rintro ⟨h1, h2⟩ k
    constructor
    · rintro ⟨p, hp, rfl⟩
      obtain ⟨q, hq, hqk⟩ := h1 p hp
      exact ⟨q, hq, hqk⟩
    · rintro ⟨p, hp, rfl⟩
      obtain ⟨q, hq, hqk⟩ := h2 p hp
      exact ⟨q, hq, hqk⟩
  · intro h
    constructor
    · intro p hp
      obtain ⟨q, hq, hqk⟩ := (h p.1).mp ⟨p, hp, rfl⟩
      exact ⟨q, hq, hqk⟩
    · intro p hp
      obtain ⟨q, hq, hqk⟩ := (h p.1).mpr ⟨p, hp, rfl⟩
      exact ⟨q, hq, hqk⟩

/-- C4: manual naming is atomic. For every current Topic Name Map and every
update (ordered list mapped positionally, or explicit index-to-name dict),
the merge is committed exactly when the merged map's key set equals the
current key set; otherwise the map is returned unchanged with the warning
flag set. -/
theorem C4_manual_naming_atomic (cur : List (Nat × PyVal)) (arg : TopicNamesArg) :
    (dictKeys (dictUpdate cur (normalizeArg arg)) = dictKeys cur →
      name_topics_manually cur arg = (dictUpdate cur (normalizeArg arg), false)) ∧
    (dictKeys (dictUpdate cur (normalizeArg arg)) ≠ dictKeys cur →
      name_topics_manually cur arg = (cur, true)) := by
  constructor
  · intro h
    have hb : keysEq (dictUpdate cur (normalizeArg arg)) cur = true :=
      (keysEq_iff _ _).mpr h
    simp [name_topics_manually, hb]
  · intro h
    have hb : ¬ keysEq (dictUpdate cur (normalizeArg arg)) cur = true := by
      intro hc
      exact h ((keysEq_iff _ _).mp hc)
    simp [name_topics_manually, hb]

/-- Concrete instances of C4, from the spec's own example: the update
{0: "Economy", 3: "Invalid"} is discarded with a warning because key 3 is
new, while {0: "Economy", 1: "Health"} is committed. -/
theorem C4_manual_naming_atomic_witness :
    name_topics_manually
        [(0, PyVal.str ("0")), (1, PyVal.str ("1")), (2, PyVal.str ("2"))]
        (TopicNamesArg.ofDict [(0, PyVal.str ("Economy")), (3, PyVal.str ("Invalid"))]) =
      ([(0, PyVal.str ("0")), (1, PyVal.str ("1")), (2, PyVal.str ("2"))], true) ∧
    name_topics_manually
        [(0, PyVal.str ("0")), (1, PyVal.str ("1")), (2, PyVal.str ("2"))]
        (TopicNamesArg.ofDict [(0, PyVal.str ("Economy")), (1, PyVal.str ("Health"))]) =
      ([(0, PyVal.str ("Economy")), (1, PyVal.str ("Health")), (2, PyVal.str ("2"))], false) :=
  ⟨(C4_manual_naming_atomic _ _).2 (by decide),
   by
    have h := (C4_manual_naming_atomic
      [(0, PyVal.str ("0")), (1, PyVal.str ("1")), (2, PyVal.str ("2"))]
      (TopicNamesArg.ofDict [(0, PyVal.str ("Economy")), (1, PyVal.str ("Health"))])).1
      (by decide)
    rw [h]
    decide⟩

/-- C5 counterexample: right after construction the Topic Name Map stores the
integer index itself, not its stringified form: at K = 3 the entry for topic
0 is `PyVal.int 0` and is not the string "0". -/
theorem C5_init_not_stringified :
    (initTopicNames 3).lookup 0 = some (PyVal.int 0) ∧
    (initTopicNames 3).lookup 0 ≠ some (PyVal.str ("0")) := by
  decide

/-- C5 (amended): after construction with selected topic count K, the Topic
Name Map maps every topic index 0..K-1 to the integer index itself (whose
decimal rendering is the display label), and no other keys are present. -/
theorem C5_init_topic_names (K : Nat) :
    (∀ i v, (i, v) ∈ initTopicNames K ↔ (i < K ∧ v = PyVal.int i)) ∧
    (initTopicNames K).map Prod.fst = List.range K := by
  constructor
  · intro i v
    constructor
    · intro h
      simp only [initTopicNames, List.mem_map, List.mem_range] at h
      obtain ⟨j, hj, hje⟩ := h
      cases hje
      exact ⟨hj, rfl⟩
    · rintro ⟨hi, rfl⟩
      simp only [initTopicNames, List.mem_map, List.mem_range]
      exact ⟨i, hi, rfl⟩
  · simp only [initTopicNames, List.map_map]
    have : (Prod.fst ∘ fun i : Nat => (i, PyVal.int i)) = id := by
      funext i
      rfl
    rw [this, List.map_id]

/-- Concrete instance of C5 (amended): at K = 3 topic 0 is mapped to the
integer 0. -/
theorem C5_init_topic_names_witness :
    (0, PyVal.int 0) ∈ initTopicNames 3 :=
  ((C5_init_topic_names 3).1 0 (PyVal.int 0)).mpr (by decide)

theorem splitOnNl_ne_nil (cs : List Char) : splitOnNl cs ≠ [] := by
  cases cs with
  | nil => simp [splitOnNl]
  | cons c cs =>
    unfold splitOnNl
    match splitOnNl cs with
    | [] => simp
    | s :: ss =>
      by_cases h : c = nlChar <;> simp [h]

theorem splitOnNl_no_newline (b : List Char) (hb : nlChar ∉ b) :
    splitOnNl b = [b] := by
  induction b with
  | nil => rfl
  | cons c cs ih =>
    have hc : c ≠ nlChar := fun h => hb (h ▸ List.mem_cons_self _ _)
    have hcs : nlChar ∉ cs := fun h => hb (List.mem_cons_of_mem _ h)
    unfold splitOnNl
    rw [ih hcs]
    simp [hc]

theorem splitOnNl_cons (c : Char) (cs : List Char) :
    splitOnNl (c :: cs) =
      match splitOnNl cs with
      | [] => [[]]
      | s :: ss => if c = nlChar then [] :: s :: ss else (c :: s) :: ss := rfl

theorem getLastD_default_irrel {α : Type} (l : List α) (hl : l ≠ []) (d₁ d₂ : α) :
    l.getLastD d₁ = l.getLastD d₂ := by
  rw [List.getLastD_eq_getLast?, List.getLastD_eq_getLast?]
  cases h : l.getLast? with
  | none => exact absurd (List.getLast?_eq_none_iff.mp h) hl
  | some x => rfl

theorem two_le_splitOnNl_append (a b : List Char) :
    2 ≤ (splitOnNl (a ++ nlChar :: b)).length := by
  induction a with
  | nil =>
    obtain ⟨s, ss, hsb⟩ := List.exists_cons_of_ne_nil (splitOnNl_ne_nil b)
    show 2 ≤ (splitOnNl (nlChar :: b)).length
    rw [splitOnNl_cons, hsb]
    simp
  | cons c a ih =>
    obtain ⟨s, ss, hsp⟩ := List.exists_cons_of_ne_nil (splitOnNl_ne_nil (a ++ nlChar :: b))
    show 2 ≤ (splitOnNl (c :: (a ++ nlChar :: b))).length
    rw [splitOnNl_cons, hsp]
    rw [hsp] at ih
    simp only [List.length_cons] at ih
    show 2 ≤ (if c = nlChar then ([] : List Char) :: s :: ss else (c :: s) :: ss).length
    by_cases h : c = nlChar
    · rw [if_pos h]
      simp only [List.length_cons]
      omega
    · rw [if_neg h]
      simp only [List.length_cons]
      omega

theorem getLastD_splitOnNl_append (a b : List Char) :
    (splitOnNl (a ++ nlChar :: b)).getLastD [] = (splitOnNl b).getLastD [] := by
  induction a with
  | nil =>
    obtain ⟨s, ss, hsb⟩ := List.exists_cons_of_ne_nil (splitOnNl_ne_nil b)
    show (splitOnNl (nlChar :: b)).getLastD [] = (splitOnNl b).getLastD []
    rw [splitOnNl_cons, hsb]
    simp [List.getLastD_cons]
  | cons c a ih =>
    obtain ⟨s, ss, hsp⟩ := List.exists_cons_of_ne_nil (splitOnNl_ne_nil (a ++ nlChar :: b))
    have hss : ss ≠ [] := by
      have h2 := two_le_splitOnNl_append a b
      rw [hsp] at h2
      intro hnil
      rw [hnil] at h2
      simp at h2
    show (splitOnNl (c :: (a ++ nlChar :: b))).getLastD [] = _
    rw [splitOnNl_cons, hsp]
    rw [hsp] at ih
    show (if c = nlChar then ([] : List Char) :: s :: ss else (c :: s) :: ss).getLastD [] =
      (splitOnNl b).getLastD []
    by_cases h : c = nlChar
    · rw [if_pos h, List.getLastD_cons]
      exact ih
    · rw [if_neg h, List.getLastD_cons, getLastD_default_irrel ss hss (c :: s) s]
      rw [List.getLastD_cons] at ih
      exact ih

/-- C6 (amended): the assigned topic title is the last line of the response
text — the segment after the final newline, which is empty when the response
ends in a newline — with every double-quote character removed, not only
surrounding ones. -/
theorem C6_title_last_line (a b : List Char) (hb : nlChar ∉ b) :
    _generate_title (a ++ nlChar :: b) = b.filter (fun c => c != quoteChar) ∧
    _generate_title b = b.filter (fun c => c != quoteChar) := by
  constructor
  · unfold _generate_title
    rw [getLastD_splitOnNl_append, splitOnNl_no_newline b hb]
    rfl
  · unfold _generate_title
    rw [splitOnNl_no_newline b hb]
    rfl

/-- C6 counterexample: for the response text "Economy\n" (title followed by a
trailing newline) the code's title is the empty string, because the code
takes the last line, not the last non-empty line; the spec's reading would
give "Economy". -/
theorem C6_title_counterexample :
    _generate_title ['E', 'c', 'o', 'n', 'o', 'm', 'y', nlChar] = [] ∧
    lastNonEmptyLineStripped ['E', 'c', 'o', 'n', 'o', 'm', 'y', nlChar] =
      ['E', 'c', 'o', 'n', 'o', 'm', 'y'] ∧
    _generate_title ['E', 'c', 'o', 'n', 'o', 'm', 'y', nlChar] ≠
      lastNonEmptyLineStripped ['E', 'c', 'o', 'n', 'o', 'm', 'y', nlChar] := by
  refine ⟨?_, ?_, ?_⟩ <;> decide

/-- Concrete instance of C6 (amended): the response `ignored\n"Hi"` yields
the title `Hi` — last line, all double quotes removed. -/
theorem C6_title_last_line_witness :
    _generate_title (['x'] ++ nlChar :: [quoteChar, 'H', 'i', quoteChar]) =
      ['H', 'i'] := by
  have h := (C6_title_last_line ['x'] [quoteChar, 'H', 'i', quoteChar] (by decide)).1
  rw [h]
  decide

theorem mem_uniqueValsAux (seen l : List String) (y : String) :
    y ∈ uniqueValsAux seen l ↔ (y ∈ l ∧ y ∉ seen) := by
  induction l generalizing seen with
  | nil => simp [uniqueValsAux]
  | cons x xs ih =>
    by_cases hx : x ∈ seen
    · simp only [uniqueValsAux, if_pos hx, ih, List.mem_cons]
      constructor
      · exact fun ⟨h1, h2⟩ => ⟨Or.inr h1, h2⟩
      · rintro ⟨rfl | h1, h2⟩
        · exact absurd hx h2
        · exact ⟨h1, h2⟩
    · simp only [uniqueValsAux, if_neg hx, List.mem_cons, ih, List.mem_append,
        List.mem_singleton]
      by_cases hyx : y = x
      · subst hyx
        tauto
      · tauto

theorem uniqueValsAux_nodup (seen l : List String) :
    (uniqueValsAux seen l).Nodup := by
  induction l generalizing seen with
  | nil => simp [uniqueValsAux]
  | cons x xs ih =>
    rw [uniqueValsAux]
    by_cases hx : x ∈ seen
    · rw [if_pos hx]
      exact ih seen
    · rw [if_neg hx]
      refine List.nodup_cons.mpr ⟨?_, ih _⟩
      intro hmem
      have h := (mem_uniqueValsAux _ _ _).mp hmem
      exact h.2 (List.mem_append.mpr (Or.inr (List.mem_singleton.mpr rfl)))

theorem mem_uniqueVals (l : List String) (y : String) :
    y ∈ uniqueVals l ↔ y ∈ l := by
  rw [uniqueVals, mem_uniqueValsAux]
  simp

theorem uniqueVals_nodup (l : List String) : (uniqueVals l).Nodup :=
  uniqueValsAux_nodup [] l

theorem aggregateGroups_eq (topics_num maxRows : Nat) (rows : List DocRow)
    (vs : List String) :
    (aggregateGroups topics_num maxRows rows vs).1 =
      (vs.filter
        (fun v => (rows.filter (fun r => r.group == v)).length == maxRows)).map
        (fun v => (v, ((rows.filter (fun r => r.group == v)).map
          (lastCols topics_num)).flatten)) ∧
    (aggregateGroups topics_num maxRows rows vs).2 =
      vs.filter
        (fun v => !((rows.filter (fun r => r.group == v)).length == maxRows)) := by
  induction vs with
  | nil => exact ⟨rfl, rfl⟩
  | cons v vs ih =>
    rw [aggregateGroups]
    by_cases h : (rows.filter (fun r => r.group == v)).length = maxRows
    · simp only [h, ne_eq, not_true_eq_false, if_false, List.filter_cons,
        beq_self_eq_true, if_true]
      constructor
      · simp only [ih.1]
        simp [h]
      · simp only [ih.2]
        simp [h]
    · simp only [ne_eq, h, not_false_eq_true, if_true]
      constructor
      · simp only [ih.1]
        simp [h]
      · simp only [ih.2]
        simp [h]

theorem filter_beq_singleton {l : List String} (hl : l.Nodup) (v : String)
    (hv : v ∈ l) : l.filter (fun y => y == v) = [v] := by
  induction l with
  | nil => cases hv
  | cons x xs ih =>
    rw [List.filter_cons]
    rcases List.mem_cons.mp hv with rfl | hv'
    · rw [if_pos (by simp)]
      have hx : v ∉ xs := (List.nodup_cons.mp hl).1
      have hnil : xs.filter (fun y => y == v) = [] := by
        refine List.filter_eq_nil_iff.mpr (fun a ha => ?_)
        simp only [beq_iff_eq]
        rintro rfl
        exact hx ha
      rw [hnil]
    · have hx : ¬ (x == v) = true := by
        simp only [beq_iff_eq]
        rintro rfl
        exact (List.nodup_cons.mp hl).1 hv'
      rw [if_neg hx]
      exact ih (List.nodup_cons.mp hl).2 hv'

theorem length_lastCols (topics_num : Nat) (r : DocRow)
    (h : topics_num ≤ r.cols.length) : (lastCols topics_num r).length = topics_num := by
  simp only [lastCols, List.length_drop]
  omega

theorem length_flatten_lastCols (topics_num : Nat) (grp : List DocRow)
    (h : ∀ r ∈ grp, topics_num ≤ r.cols.length) :
    ((grp.map (lastCols topics_num)).flatten).length = topics_num * grp.length := by
  induction grp with
  | nil => simp
  | cons r rs ih =>
    simp only [List.map_cons, List.flatten_cons, List.length_append, List.length_cons]
    rw [length_lastCols topics_num r (h r (List.mem_cons_self _ _)),
      ih (fun x hx => h x (List.mem_cons_of_mem _ hx))]
    ring

/-- C2: for every Document-Topic Table and grouping value, a group whose row
count differs from the maximal group row count is excluded entirely from the
Group-Aggregated Table and appears in the emitted warnings, while a group
whose row count equals the maximum produces exactly one output row, the
row-major flattening of its last `topics_num` columns, of width
`topics_num` times that row count. -/
theorem C2_group_aggregator (topics_num : Nat) (rows : List DocRow)
    (hcols : ∀ r ∈ rows, topics_num ≤ r.cols.length)
    (v : String) (hv : v ∈ rows.map DocRow.group) :
    ((rows.filter (fun r => r.group == v)).length ≠ maxGroupRows rows →
      v ∈ (get_topic_probs_averaged_over_column topics_num rows).2 ∧
      ∀ p ∈ (get_topic_probs_averaged_over_column topics_num rows).1, p.1 ≠ v) ∧
    ((rows.filter (fun r => r.group == v)).length = maxGroupRows rows →
      v ∉ (get_topic_probs_averaged_over_column topics_num rows).2 ∧
      ((get_topic_probs_averaged_over_column topics_num rows).1).filter
          (fun p => p.1 == v) =
        [(v, ((rows.filter (fun r => r.group == v)).map
          (lastCols topics_num)).flatten)] ∧
      (((rows.filter (fun r => r.group == v)).map
          (lastCols topics_num)).flatten).length =
        topics_num * (rows.filter (fun r => r.group == v)).length) := by
  have hchar := aggregateGroups_eq topics_num (maxGroupRows rows) rows
    (uniqueVals (rows.map DocRow.group))
  have hvu : v ∈ uniqueVals (rows.map DocRow.group) :=
    (mem_uniqueVals _ _).mpr hv
  have hnd := uniqueVals_nodup (rows.map DocRow.group)
  constructor
  · intro hne
    constructor
    · show v ∈ (aggregateGroups _ _ _ _).2
      rw [hchar.2, List.mem_filter]
      refine ⟨hvu, ?_⟩
      simp only [Bool.not_eq_true', beq_eq_false_iff_ne, ne_eq]
      exact hne
    · intro p hp
      show p.1 ≠ v
      simp only [get_topic_probs_averaged_over_column] at hp
      rw [hchar.1] at hp
      obtain ⟨v', hv', rfl⟩ := List.mem_map.mp hp
      have := (List.mem_filter.mp hv').2
      simp only [beq_iff_eq] at this
      intro hcontra
      have hcv : v' = v := hcontra
      rw [hcv] at this
      exact hne this
  · intro heq
    refine ⟨?_, ?_, ?_⟩
    · show v ∉ (aggregateGroups _ _ _ _).2
      rw [hchar.2, List.mem_filter]
      rintro ⟨-, hpred⟩
      simp only [Bool.not_eq_true', beq_eq_false_iff_ne, ne_eq] at hpred
      exact hpred heq
    · show (aggregateGroups _ _ _ _).1.filter _ = _
      rw [hchar.1, List.filter_map]
      have hcomp : ((fun p : String × List ℚ => p.1 == v) ∘
          (fun v' => (v', ((rows.filter (fun r => r.group == v')).map
            (lastCols topics_num)).flatten))) = (fun y => y == v) := by
        funext y
        rfl
      rw [hcomp, List.filter_filter]
      have hfun : (fun a => decide (a = v) &&
          ((rows.filter (fun r => r.group == a)).length == maxGroupRows rows)) =
          (fun a : String => a == v) := by
        funext a
        by_cases ha : a = v
        · subst ha
          simp [heq]
        · simp [ha]
      rw [show (fun (a : String) => (a == v) &&
          ((rows.filter (fun r => r.group == a)).length == maxGroupRows rows)) =
          (fun a : String => a == v) from hfun]
      rw [filter_beq_singleton hnd v hvu, List.map_singleton]
    · refine length_flatten_lastCols topics_num _ (fun r hr => ?_)
      exact hcols r (List.mem_filter.mp hr).1

/-- Concrete instance of C2, the spec's own test: groups of sizes {3, 3, 2};
the size-2 group "C" is warned about and excluded, and group "A" yields
exactly one row, the flattening of its three probability values. -/
theorem C2_group_aggregator_witness :
    ("C" ∈ (get_topic_probs_averaged_over_column 1
        [⟨"A", [1]⟩, ⟨"A", [2]⟩, ⟨"A", [3]⟩, ⟨"B", [4]⟩, ⟨"B", [5]⟩, ⟨"B", [6]⟩,
         ⟨"C", [7]⟩, ⟨"C", [8]⟩]).2 ∧
      ∀ p ∈ (get_topic_probs_averaged_over_column 1
        [⟨"A", [1]⟩, ⟨"A", [2]⟩, ⟨"A", [3]⟩, ⟨"B", [4]⟩, ⟨"B", [5]⟩, ⟨"B", [6]⟩,
         ⟨"C", [7]⟩, ⟨"C", [8]⟩]).1, p.1 ≠ "C") ∧
    (get_topic_probs_averaged_over_column 1
        [⟨"A", [1]⟩, ⟨"A", [2]⟩, ⟨"A", [3]⟩, ⟨"B", [4]⟩, ⟨"B", [5]⟩, ⟨"B", [6]⟩,
         ⟨"C", [7]⟩, ⟨"C", [8]⟩]).1.filter (fun p => p.1 == "A") =
      [("A", [(1 : ℚ), 2, 3])] := by
  refine ⟨(C2_group_aggregator 1 _ (by decide) ("C") (by decide)).1 (by decide), ?_⟩
  have h := ((C2_group_aggregator 1
    [⟨"A", [1]⟩, ⟨"A", [2]⟩, ⟨"A", [3]⟩, ⟨"B", [4]⟩, ⟨"B", [5]⟩, ⟨"B", [6]⟩,
     ⟨"C", [7]⟩, ⟨"C", [8]⟩] (by decide) ("A") (by decide)).2 (by decide)).2.1
  rw [h]
  decide

/-- C10: for every non-empty Document-Topic Table the Group-Aggregated Table
is non-empty: the size threshold is the maximal group row count, so any group
attaining that maximum passes the equal-size check and is kept. -/
theorem C10_aggregated_nonempty (topics_num : Nat) (rows : List DocRow)
    (hne : rows ≠ []) :
    (get_topic_probs_averaged_over_column topics_num rows).1 ≠ [] := by
  have hchar := aggregateGroups_eq topics_num (maxGroupRows rows) rows
    (uniqueVals (rows.map DocRow.group))
  show (aggregateGroups _ _ _ _).1 ≠ []
  rw [hchar.1]
  obtain ⟨r, rest, rfl⟩ := List.exists_cons_of_ne_nil hne
  have hvg : r.group ∈ uniqueVals ((r :: rest).map DocRow.group) :=
    (mem_uniqueVals _ _).mpr (List.mem_map.mpr ⟨r, List.mem_cons_self _ _, rfl⟩)
  cases hm : ((uniqueVals ((r :: rest).map DocRow.group)).map
      (fun v => ((r :: rest).filter (fun x => x.group == v)).length)).max? with
  | none =>
    have := List.max?_eq_none_iff.mp hm
    rw [List.map_eq_nil_iff] at this
    rw [this] at hvg
    cases hvg
  | some m =>
    have hmem : m ∈ (uniqueVals ((r :: rest).map DocRow.group)).map
        (fun v => ((r :: rest).filter (fun x => x.group == v)).length) :=
      List.max?_mem (fun a b => max_choice a b) hm
    obtain ⟨v1, hv1, hcnt⟩ := List.mem_map.mp hmem
    have hmx : maxGroupRows (r :: rest) = m := by
      rw [maxGroupRows, hm]
      rfl
    have hfm : v1 ∈ (uniqueVals ((r :: rest).map DocRow.group)).filter
        (fun v => (((r :: rest).filter (fun x => x.group == v)).length ==
          maxGroupRows (r :: rest))) := by
      rw [List.mem_filter]
      exact ⟨hv1, by rw [hmx, hcnt]; exact beq_self_eq_true m⟩
    exact List.ne_nil_of_mem (List.mem_map.mpr ⟨v1, hfm, rfl⟩)

/-- Concrete instance of C10: a one-row table yields a non-empty aggregate. -/
theorem C10_aggregated_nonempty_witness :
    (get_topic_probs_averaged_over_column 1 [⟨"A", [(1 : ℚ)]⟩]).1 ≠ [] :=
  C10_aggregated_nonempty 1 [⟨"A", [(1 : ℚ)]⟩] (by decide)

/-- C7 (code bug at lines 104-108): with `show_names = True` the code assigns
the `topics_num` Topic Name Map values as column labels of a frame whose
width is `topics_num * (maximal group row count)`, so whenever groups have
more than one row pandas raises a length-mismatch `ValueError` instead of
showing the names; with the flag unset the same input succeeds with integer
column labels 0..width-1 and identical row content. -/
theorem C7_show_names_mismatch :
    get_topic_probs_averaged_with_names 2
        [⟨"A", [1, 2]⟩, ⟨"A", [3, 4]⟩, ⟨"B", [5, 6]⟩, ⟨"B", [7, 8]⟩]
        (initTopicNames 2) true = Except.error ("Length mismatch") ∧
    get_topic_probs_averaged_with_names 2
        [⟨"A", [1, 2]⟩, ⟨"A", [3, 4]⟩, ⟨"B", [5, 6]⟩, ⟨"B", [7, 8]⟩]
        (initTopicNames 2) false =
      Except.ok ([PyVal.int 0, PyVal.int 1, PyVal.int 2, PyVal.int 3],
        [("A", [(1 : ℚ), 2, 3, 4]), ("B", [5, 6, 7, 8])]) := by
  exact ⟨rfl, rfl⟩

theorem foldl_set_length (doc : List (Nat × ℚ)) (row : List ℚ) :
    (doc.foldl (fun row tp => row.set tp.1 (npRound4 tp.2)) row).length = row.length := by
  induction doc generalizing row with
  | nil => rfl
  | cons tp doc ih =>
    rw [List.foldl_cons, ih, List.length_set]

theorem foldl_set_not_mem (doc : List (Nat × ℚ)) (row : List ℚ) (t : Nat)
    (ht : t ∉ doc.map Prod.fst) :
    (doc.foldl (fun row tp => row.set tp.1 (npRound4 tp.2)) row).getD t 0 =
      row.getD t 0 := by
  induction doc generalizing row with
  | nil => rfl
  | cons tp doc ih =>
    rw [List.foldl_cons]
    have h1 : t ∉ doc.map Prod.fst := fun h =>
      ht (List.mem_cons_of_mem _ h)
    have h2 : tp.1 ≠ t := fun h =>
      ht (h ▸ List.mem_cons_self _ _)
    rw [ih _ h1, List.getD_eq_getElem?_getD, List.getElem?_set_ne h2,
      ← List.getD_eq_getElem?_getD]

theorem foldl_set_mem (doc : List (Nat × ℚ)) (row : List ℚ) (t : Nat) (p : ℚ)
    (hmem : (t, p) ∈ doc) (hnd : (doc.map Prod.fst).Nodup) (ht : t < row.length) :
    (doc.foldl (fun row tp => row.set tp.1 (npRound4 tp.2)) row).getD t 0 =
      npRound4 p := by
  induction doc generalizing row with
  | nil => cases hmem
  | cons tp doc ih =>
    rw [List.foldl_cons]
    rcases List.mem_cons.mp hmem with heq | hmem'
    · have hrest : t ∉ doc.map Prod.fst := by
        have := (List.nodup_cons.mp hnd).1
        rw [← heq] at this
        exact this
      rw [foldl_set_not_mem doc _ t hrest, ← heq]
      rw [List.getD_eq_getElem?_getD,
        List.getElem?_set_self (by rw [show ((t, p) : Nat × ℚ).1 = t from rfl]; exact ht),
        Option.getD_some]
    · have h2 : tp.1 ≠ t := by
        intro h
        have hm : t ∈ doc.map Prod.fst := List.mem_map.mpr ⟨(t, p), hmem', rfl⟩
        rw [← h] at hm
        exact (List.nodup_cons.mp hnd).1 hm
      refine ih _ hmem' (List.nodup_cons.mp hnd).2 ?_
      rw [List.length_set]
      exact ht

theorem getD_replicate_zero (n t : Nat) : (List.replicate n (0 : ℚ)).getD t 0 = 0 := by
  rw [List.getD_eq_getElem?_getD]
  cases h : (List.replicate n (0 : ℚ))[t]? with
  | none => rfl
  | some x =>
    have hx : x ∈ List.replicate n (0 : ℚ) := by
      have hlt : t < (List.replicate n (0 : ℚ)).length := by
        by_contra hge
        rw [List.getElem?_eq_none (by omega)] at h
        cases h
      rw [List.getElem?_eq_getElem hlt] at h
      cases h
      exact List.getElem_mem hlt
    rw [Option.getD_some, List.eq_of_mem_replicate hx]

theorem get_topic_probs_res_row (res_len topics_num : Nat)
    (corpus_model : List (List (Nat × ℚ))) (i : Nat) (hi : i < res_len) :
    (get_topic_probs_res res_len topics_num corpus_model).getD i [] =
      writeTopicProbs topics_num (corpus_model.getD i []) := by
  rw [get_topic_probs_res, List.getD_eq_getElem?_getD, List.getElem?_map,
    List.getElem?_range hi]
  rfl

/-- C3: for every model output over the encoded documents (one sparse topic
list per corpus row, topic ids below `topics_num` and distinct within a
document, as the model guarantees), the probability matrix has exactly one
row per Filtered Corpus row and `topics_num` columns per row; every reported
(topic, probability) pair is stored as `np.round(p, 4)`, a topic column is
non-zero only if the model reported that topic for that document, and all
unreported topic columns are zero. -/
theorem C3_document_mixture (res_len topics_num : Nat)
    (corpus_model : List (List (Nat × ℚ)))
    (hlen : corpus_model.length = res_len)
    (hids : ∀ doc ∈ corpus_model, ∀ tp ∈ doc, tp.1 < topics_num)
    (hnd : ∀ doc ∈ corpus_model, (doc.map Prod.fst).Nodup) :
    (get_topic_probs_res res_len topics_num corpus_model).length = res_len ∧
    (∀ row ∈ get_topic_probs_res res_len topics_num corpus_model,
      row.length = topics_num) ∧
    (∀ i, i < res_len → ∀ tp ∈ corpus_model.getD i [],
      ((get_topic_probs_res res_len topics_num corpus_model).getD i []).getD tp.1 0 =
        npRound4 tp.2) ∧
    (∀ i, i < res_len → ∀ t, t ∉ (corpus_model.getD i []).map Prod.fst →
      ((get_topic_probs_res res_len topics_num corpus_model).getD i []).getD t 0 = 0) ∧
    (∀ i, i < res_len → ∀ t,
      ((get_topic_probs_res res_len topics_num corpus_model).getD i []).getD t 0 ≠ 0 →
      ∃ p, (t, p) ∈ corpus_model.getD i []) := by
  have hdoc_mem : ∀ i, i < res_len → corpus_model.getD i [] = [] ∨
      corpus_model.getD i [] ∈ corpus_model := by
    intro i hi
    by_cases hic : i < corpus_model.length
    · right
      rw [List.getD_eq_getElem?_getD, List.getElem?_eq_getElem hic, Option.getD_some]
      exact List.getElem_mem hic
    · left
      rw [List.getD_eq_getElem?_getD, List.getElem?_eq_none (by omega), Option.getD_none]
  refine ⟨?_, ?_, ?_, ?_, ?_⟩
  · rw [get_topic_probs_res, List.length_map, List.length_range]
  · intro row hrow
    rw [get_topic_probs_res] at hrow
    obtain ⟨i, hi, rfl⟩ := List.mem_map.mp hrow
    rw [writeTopicProbs, foldl_set_length, List.length_replicate]
  · intro i hi tp htp
    rcases hdoc_mem i hi with hnil | hmem
    · rw [hnil] at htp
      cases htp
    · rw [get_topic_probs_res_row res_len topics_num corpus_model i hi, writeTopicProbs]
      have htlt : tp.1 < (List.replicate topics_num (0 : ℚ)).length := by
        rw [List.length_replicate]
        exact hids _ hmem tp htp
      have := foldl_set_mem (corpus_model.getD i []) (List.replicate topics_num 0)
        tp.1 tp.2 (by rw [show ((tp.1, tp.2) : Nat × ℚ) = tp from rfl]; exact htp)
        (hnd _ hmem) htlt
      exact this
  · intro i hi t hnot
    rw [get_topic_probs_res_row res_len topics_num corpus_model i hi, writeTopicProbs,
      foldl_set_not_mem _ _ _ hnot, getD_replicate_zero]
  · intro i hi t hne
    by_contra hnone
    push_neg at hnone
    have hnot : t ∉ (corpus_model.getD i []).map Prod.fst := by
      intro hmem
      obtain ⟨tp, htp, hfst⟩ := List.mem_map.mp hmem
      exact hnone tp.2 (by rw [show (t, tp.2) = tp from Prod.ext hfst.symm rfl]; exact htp)
    apply hne
    rw [get_topic_probs_res_row res_len topics_num corpus_model i hi, writeTopicProbs,
      foldl_set_not_mem _ _ _ hnot, getD_replicate_zero]

/-- Concrete instance of C3: two documents over three topics, the first
reporting topic 0 and the second topic 2; the stored entries are the rounded
reported probabilities and an unreported column is zero. -/
theorem C3_document_mixture_witness :
    ((get_topic_probs_res 2 3 [[(0, (1 : ℚ))], [(2, (3 : ℚ))]]).getD 0 []).getD 0 0 =
      npRound4 1 ∧
    ((get_topic_probs_res 2 3 [[(0, (1 : ℚ))], [(2, (3 : ℚ))]]).getD 1 []).getD 1 0 = 0 :=
  ⟨(C3_document_mixture 2 3 [[(0, (1 : ℚ))], [(2, (3 : ℚ))]] rfl (by decide)
      (by decide)).2.2.1 0 (by decide) (0, 1) (by decide),
   (C3_document_mixture 2 3 [[(0, (1 : ℚ))], [(2, (3 : ℚ))]] rfl (by decide)
      (by decide)).2.2.2.1 1 (by decide) 1 (by decide)⟩

theorem length_flatMap_rows (topics : List (Nat × List (Nat × ℚ)))
    (lemmas : List (List String)) (id2word : Nat → String)
    (hw : ∀ t ∈ topics, t.2.length = 10) :
    (topics.flatMap (fun t => t.2.map (fun w => (⟨id2word w.1, t.1, w.2,
      (lemmas.flatten).count (id2word w.1)⟩ : TopicWordRow)))).length =
      10 * topics.length := by
  induction topics with
  | nil => rfl
  | cons t ts ih =>
    rw [List.flatMap_cons, List.length_append, List.length_map,
      hw t (List.mem_cons_self _ _), ih (fun x hx => hw x (List.mem_cons_of_mem _ hx)),
      List.length_cons]
    ring

/-- C8: for a fixed model with K topics each reporting 10 words, the Topic
Word Table has exactly 10 × K rows; every row's frequency column is the
word's occurrence count over the entire Filtered Corpus, every (topic, word,
weight) triple reported by the model appears with its native weight
unchanged, and the rows are sorted by importance in non-increasing order. -/
theorem C8_topic_word_table (topics : List (Nat × List (Nat × ℚ)))
    (lemmas : List (List String)) (id2word : Nat → String) (K : Nat)
    (hK : topics.length = K) (hw : ∀ t ∈ topics, t.2.length = 10) :
    (get_topics_df topics lemmas id2word).length = 10 * K ∧
    List.Sorted (fun a b : TopicWordRow => b.importance ≤ a.importance)
      (get_topics_df topics lemmas id2word) ∧
    (∀ row ∈ get_topics_df topics lemmas id2word,
      row.word_count = (lemmas.flatten).count row.word) ∧
    (∀ t ∈ topics, ∀ w ∈ t.2,
      (⟨id2word w.1, t.1, w.2, (lemmas.flatten).count (id2word w.1)⟩ : TopicWordRow) ∈
        get_topics_df topics lemmas id2word) ∧
    (∀ row ∈ get_topics_df topics lemmas id2word, ∃ t ∈ topics, ∃ w ∈ t.2,
      row = ⟨id2word w.1, t.1, w.2, (lemmas.flatten).count (id2word w.1)⟩) := by
  have hperm := List.perm_insertionSort
    (fun a b : TopicWordRow => b.importance ≤ a.importance)
    (topics.flatMap (fun t => t.2.map (fun w =>
      ⟨id2word w.1, t.1, w.2, (lemmas.flatten).count (id2word w.1)⟩)))
  refine ⟨?_, ?_, ?_, ?_, ?_⟩
  · rw [get_topics_df, hperm.length_eq, length_flatMap_rows topics lemmas id2word hw, hK]
  · exact List.sorted_insertionSort _ _
  · intro row hrow
    have hmem := hperm.mem_iff.mp hrow
    obtain ⟨t, ht, hin⟩ := List.mem_flatMap.mp hmem
    obtain ⟨w, hwm, rfl⟩ := List.mem_map.mp hin
    rfl
  · intro t ht w hwm
    refine hperm.mem_iff.mpr (List.mem_flatMap.mpr ⟨t, ht, ?_⟩)
    exact List.mem_map.mpr ⟨w, hwm, rfl⟩
  · intro row hrow
    have hmem := hperm.mem_iff.mp hrow
    obtain ⟨t, ht, hin⟩ := List.mem_flatMap.mp hmem
    obtain ⟨w, hwm, rfl⟩ := List.mem_map.mp hin
    exact ⟨t, ht, w, hwm, rfl⟩

/-- Concrete instance of C8: one topic with ten weighted words over a
two-document corpus; the table has 10 rows and the top row carries the
corpus-wide count of its word. -/
theorem C8_topic_word_table_witness :
    (get_topics_df
        [(0, [(0, (10 : ℚ)), (1, 9), (0, 8), (1, 7), (0, 6), (1, 5), (0, 4), (1, 3),
          (0, 2), (1, 1)])]
        [["w"], ["w", "v"]] (fun i => if i = 0 then ("w") else ("v"))).length =
      10 * 1 ∧
    (⟨"w", 0, (10 : ℚ), 2⟩ : TopicWordRow) ∈
      get_topics_df
        [(0, [(0, (10 : ℚ)), (1, 9), (0, 8), (1, 7), (0, 6), (1, 5), (0, 4), (1, 3),
          (0, 2), (1, 1)])]
        [["w"], ["w", "v"]] (fun i => if i = 0 then ("w") else ("v")) := by
  constructor
  · exact (C8_topic_word_table
      [(0, [(0, (10 : ℚ)), (1, 9), (0, 8), (1, 7), (0, 6), (1, 5), (0, 4), (1, 3),
        (0, 2), (1, 1)])]
      [["w"], ["w", "v"]] (fun i => if i = 0 then ("w") else ("v")) 1 rfl
      (by decide)).1
  · have h := (C8_topic_word_table
      [(0, [(0, (10 : ℚ)), (1, 9), (0, 8), (1, 7), (0, 6), (1, 5), (0, 4), (1, 3),
        (0, 2), (1, 1)])]
      [["w"], ["w", "v"]] (fun i => if i = 0 then ("w") else ("v")) 1 rfl
      (by decide)).2.2.2.1
      (0, [(0, (10 : ℚ)), (1, 9), (0, 8), (1, 7), (0, 6), (1, 5), (0, 4), (1, 3),
        (0, 2), (1, 1)])
      (by decide) (0, (10 : ℚ)) (by decide)
    exact h

theorem nameTopicsLoop_spec (gen : String → String) (keywords : Nat → List String)
    (weights : Nat → List ℚ) (n : Nat) :
    ∀ (i : Nat) (exc : List String),
    (nameTopicsLoop gen keywords weights n i exc).length = n ∧
    ∀ j, j < n →
      ((nameTopicsLoop gen keywords weights n i exc).getD j default).topic_id = i + j ∧
      ((nameTopicsLoop gen keywords weights n i exc).getD j default).excluded =
        exc ++ ((nameTopicsLoop gen keywords weights n i exc).take j).map
          TitleCall.title ∧
      ((nameTopicsLoop gen keywords weights n i exc).getD j default).prompt =
        _generate_prompt (keywords (i + j)) (weights (i + j))
          (((nameTopicsLoop gen keywords weights n i exc).getD j default).excluded) ∧
      ((nameTopicsLoop gen keywords weights n i exc).getD j default).title =
        gen (((nameTopicsLoop gen keywords weights n i exc).getD j default).prompt) := by
  induction n with
  | zero =>
    intro i exc
    exact ⟨rfl, fun j hj => absurd hj (Nat.not_lt_zero j)⟩
  | succ n ih =>
    intro i exc
    have hexp : nameTopicsLoop gen keywords weights (n + 1) i exc =
        ⟨i, exc, _generate_prompt (keywords i) (weights i) exc,
          gen (_generate_prompt (keywords i) (weights i) exc)⟩ ::
          nameTopicsLoop gen keywords weights n (i + 1)
            (exc ++ [gen (_generate_prompt (keywords i) (weights i) exc)]) := rfl
    constructor
    · rw [hexp, List.length_cons, (ih (i + 1) _).1]
    · intro j hj
      cases j with
      | zero =>
        rw [hexp]
        refine ⟨by simp, by simp, by simp, by simp⟩
      | succ k =>
        have hk : k < n := Nat.lt_of_succ_lt_succ hj
        have hrec := (ih (i + 1)
          (exc ++ [gen (_generate_prompt (keywords i) (weights i) exc)])).2 k hk
        rw [hexp]
        simp only [List.getD_cons_succ, List.take_succ_cons, List.map_cons]
        refine ⟨?_, ?_, ?_, ?_⟩
        · rw [hrec.1]
          omega
        · rw [hrec.2.1, List.append_assoc]
          rfl
        · rw [hrec.2.2.1]
          have : i + 1 + k = i + (k + 1) := by omega
          rw [this]
        · exact hrec.2.2.2

/-- C9: for every selected topic count and every (stubbed) completion
collaborator, the collaborator is invoked exactly `topics_num` times, once
per topic index in ascending order 0..topics_num-1, and the exclusion list
embedded in the j-th call's prompt is exactly the list of titles produced by
the strictly earlier calls. -/
theorem C9_automatic_naming_calls (gen : String → String)
    (keywords : Nat → List String) (weights : Nat → List ℚ) (topics_num : Nat) :
    (name_topics_automatically_gpt3 gen keywords weights topics_num).length =
      topics_num ∧
    ∀ j, j < topics_num →
      ((name_topics_automatically_gpt3 gen keywords weights topics_num).getD j
        default).topic_id = j ∧
      ((name_topics_automatically_gpt3 gen keywords weights topics_num).getD j
        default).excluded =
        ((name_topics_automatically_gpt3 gen keywords weights topics_num).take j).map
          TitleCall.title ∧
      ((name_topics_automatically_gpt3 gen keywords weights topics_num).getD j
        default).prompt =
        _generate_prompt (keywords j) (weights j)
          (((name_topics_automatically_gpt3 gen keywords weights topics_num).getD j
            default).excluded) := by
  have h := nameTopicsLoop_spec gen keywords weights topics_num 0 []
  refine ⟨h.1, fun j hj => ?_⟩
  have hj' := h.2 j hj
  refine ⟨?_, ?_, ?_⟩
  · rw [show name_topics_automatically_gpt3 gen keywords weights topics_num =
      nameTopicsLoop gen keywords weights topics_num 0 [] from rfl, hj'.1]
    omega
  · rw [show name_topics_automatically_gpt3 gen keywords weights topics_num =
      nameTopicsLoop gen keywords weights topics_num 0 [] from rfl, hj'.2.1,
      List.nil_append]
  · rw [show name_topics_automatically_gpt3 gen keywords weights topics_num =
      nameTopicsLoop gen keywords weights topics_num 0 [] from rfl, hj'.2.2.1]
    have : 0 + j = j := by omega
    rw [this]

/-- Concrete instance of C9: a stub collaborator answering "T" to every
prompt, two topics, no keywords: two calls are made and the second call's
exclusion list is exactly the first call's title. -/
theorem C9_automatic_naming_calls_witness :
    (name_topics_automatically_gpt3 (fun _ => ("T")) (fun _ => []) (fun _ => []) 2).length
      = 2 ∧
    ((name_topics_automatically_gpt3 (fun _ => ("T")) (fun _ => []) (fun _ => []) 2).getD
      1 default).excluded = ["T"] := by
  constructor
  · exact (C9_automatic_naming_calls (fun _ => ("T")) (fun _ => []) (fun _ => []) 2).1
  · have h := ((C9_automatic_naming_calls (fun _ => ("T")) (fun _ => []) (fun _ => []) 2).2
      1 (by decide)).2.1
    rw [h]
    rfl

end HADES
